import Mathlib

/-!
# Verification of the genlisp core

Shallow embedding of the genlisp repository: the expression model and the
evaluator of `genlisp/base.py`, the persistent environment of
`genlisp/frozendict.py`, and the plan graph / plan compiler of
`examples/example1.py` (with the `ExpressionPlan` record mirrored from
`genlisp/world.py`).
-/

namespace Genlisp

/-- The `Variable` class from `genlisp/base.py`: identity-bearing binder.  Equality and
hashing in Python are by `uuid`; the cosmetic `name` is carried because
primitive invocation keys keyword arguments by `k.name`.  Distinct Python
variables are embedded with distinct `id`s. -/
structure Var where
  id : Nat
  name : String
deriving DecidableEq, Repr

/-- The expression union of `genlisp/base.py`: `bool` literals, `Variable`,
`Lambda`, `Beta`, `If`, `Let` and `FunctionToken`.  Environments map
variables to expressions (`evaluate` stores raw expressions in environments,
e.g. in the `Let` case), so the closure environment inside `lam` holds
expressions as well. -/
inductive Expr where
  | bool (b : Bool)
  | var (v : Var)
  | lam (vars : List Var) (body : Expr) (closed : List (Var × Expr)) (name : Option String)
  | beta (head : Expr) (args : List Expr) (kwargs : List (Var × Expr))
  | ifE (condition if_clause else_clause : Expr)
  | letE (mapping : List (Var × Expr)) (body : Expr)
  | token (name : String) (vars : List Var)

/-- Environments: the `frozendict` mapping `Variable → Expression` as used by
`evaluate`, embedded as an association list where the first matching key
wins. -/
abbrev Env : Type := List (Var × Expr)

/-- Key lookup by variable identity (`frozendict.__getitem__`). -/
def Env.lookup : Env → Var → Option Expr
  | [], _ => none
  | (k, v) :: rest, x => if k = x then some v else Env.lookup rest x

/-- Modelled from the spec: the merge operation `frozendict.update` is
absent from `src/genlisp/frozendict.py` (only its callers in
`genlisp/base.py` and the test `test_frozen_dict.py::test_update` are in
the sources).  Per §4.1 of the spec it is the right-biased merge: `merged(other) → new Environment` where
keys in `other` take precedence over `self`; with an iterable of pairs,
later pairs take precedence over earlier ones (Python `dict.update`
semantics, visible at the call site `variable_mapping.update(chain(...))`).
Prepending the reversed pair list gives exactly that precedence under
first-match lookup. -/
def Env.update (e : Env) (ps : List (Var × Expr)) : Env :=
  ps.reverse ++ e

/-- Python truthiness, as used by `evaluate` on `If` conditions and by the
`Nand` host function: a `bool` carries its value, every other object
(`Lambda`, `Token`, `Variable`, …) is truthy. -/
def truthy : Expr → Bool
  | .bool b => b
  | _ => true

/-- Errors an `evaluate` call can raise: `outOfFuel` is the step-index
artifact of the embedding; the others mirror the Python exceptions
(`KeyError` on environment lookup, `TypeError` for a non-callable `Beta`
head, `KeyError` on the `python_function` table, `TypeError` from host
argument binding, and the `ValueError` from unpacking an empty `Let`
mapping in `zip(*expr.mapping.items())`). -/
inductive EvalErr where
  | outOfFuel
  | unbound (v : Var)
  | nonCallableHead
  | unknownPrimitive
  | bindError
  | emptyLetUnpack
deriving DecidableEq, Repr

/-- The parameter variables of the `Nand` primitive token
(`Variable('a')`, `Variable('b')` in `genlisp/base.py`). -/
def nandVarA : Var := ⟨1001, "a"⟩

def nandVarB : Var := ⟨1002, "b"⟩

/-- The primitive `Nand = FunctionToken(name='Nand', variables=(Variable('a'), Variable('b')))`. -/
def Nand : Expr := .token "Nand" [nandVarA, nandVarB]

/-- Last-occurrence string lookup: the dict comprehension
`{k.name: v for k, v in evaluated_kwargs.items()}` lets a later item with
the same name overwrite an earlier one. -/
def strLookupLast : List (String × Expr) → String → Option Expr
  | [], _ => none
  | (k, v) :: rest, s =>
    match strLookupLast rest s with
    | some r => some r
    | none => if k = s then some v else none

/-- Invocation of the `Nand` host function `lambda a, b: not (a and b)` via
`f(*evaluated_args, **{k.name: v ...})`: CPython binds the two parameters
positionally first, then by the names `"a"` and `"b"`, raising `TypeError`
(collapsed here to `bindError`) on too many positional arguments, an
unexpected keyword name, a parameter bound twice, or a missing parameter.
`not (a and b)` on arbitrary objects goes through truthiness. -/
def applyNand (args : List Expr) (kw : List (String × Expr)) : Except EvalErr Expr :=
  if kw.any (fun p => p.1 != "a" && p.1 != "b") then .error .bindError
  else
    match args with
    | _ :: _ :: _ :: _ => .error .bindError
    | [a, b] =>
      if kw.any (fun p => p.1 == "a" || p.1 == "b") then .error .bindError
      else .ok (.bool (!(truthy a && truthy b)))
    | [a] =>
      if kw.any (fun p => p.1 == "a") then .error .bindError
      else
        match strLookupLast kw "b" with
        | some b => .ok (.bool (!(truthy a && truthy b)))
        | none => .error .bindError
    | [] =>
      match strLookupLast kw "a", strLookupLast kw "b" with
      | some a, some b => .ok (.bool (!(truthy a && truthy b)))
      | _, _ => .error .bindError

/-- Sequence a fallible function over a list, stopping at the first error
(the evaluation of positional arguments and keyword-argument values). -/
def evalExceptList {α β : Type} (f : α → Except EvalErr β) : List α → Except EvalErr (List β)
  | [] => .ok []
  | x :: rest =>
    match f x with
    | .error err => .error err
    | .ok v =>
      match evalExceptList f rest with
      | .error err => .error err
      | .ok vs => .ok (v :: vs)

/-- The function `evaluate(expr, variable_mapping)` from `genlisp/base.py`, step-indexed
by fuel (the Python function is recursive and may diverge; every recursive
call here runs at one fuel less).

Faithfulness notes, matching the source line by line:
* `Beta`: the head is evaluated first, then all keyword-argument values
  (the dict comprehension is eager), and positional arguments lazily — the
  generator is consumed by `zip(ll.variables, evaluated_args)`, so only the
  first `len(ll.variables)` arguments are ever evaluated when the head is a
  `Lambda` (`args.take`), silently truncating when too few are supplied,
  while the `FunctionToken` branch consumes the whole generator.
* the child environment for a `Lambda` head is
  `variable_mapping.update(chain(ll.closed, zip(...), evaluated_kwargs))`:
  the *ambient* mapping is the base of the merge, with `closed`, positional
  and keyword bindings layered over it in that precedence order.
* `Lambda` seals its closure: `closed = variable_mapping.update(expr.closed)`.
* `Variable` returns `variable_mapping[expr]` as stored, unevaluated.
* `Let` unpacks `zip(*expr.mapping.items())` — a `ValueError` when the
  mapping is empty — and otherwise evaluates
  `Beta(let_lambda, values)` under `variable_mapping.update(expr.mapping)`.
* literals and tokens evaluate to themselves. -/
def evaluate : Nat → Expr → Env → Except EvalErr Expr
  | 0, _, _ => .error .outOfFuel
  | fuel + 1, e, env =>
    match e with
    | .beta head args kwargs =>
      (match evaluate fuel head env with
       | .error err => .error err
       | .ok eh =>
         match evalExceptList (fun p => (evaluate fuel p.2 env).map (fun v => (p.1, v))) kwargs with
         | .error err => .error err
         | .ok ekw =>
           match eh with
           | .lam vs body closed _ =>
             (match evalExceptList (fun x => evaluate fuel x env) (args.take vs.length) with
              | .error err => .error err
              | .ok eargs =>
                evaluate fuel body (Env.update env (closed ++ vs.zip eargs ++ ekw)))
           | .token nm tvars =>
             if nm == "Nand" && tvars == [nandVarA, nandVarB] then
               match evalExceptList (fun x => evaluate fuel x env) args with
               | .error err => .error err
               | .ok eargs => applyNand eargs (ekw.map (fun p => (p.1.name, p.2)))
             else .error .unknownPrimitive
           | _ => .error .nonCallableHead)
    | .lam vs body closed nm => .ok (.lam vs body (Env.update env closed) nm)
    | .ifE c t f =>
      (match evaluate fuel c env with
       | .error err => .error err
       | .ok ec => if truthy ec then evaluate fuel t env else evaluate fuel f env)
    | .var v =>
      (match Env.lookup env v with
       | some value => .ok value
       | none => .error (.unbound v))
    | .letE mapping body =>
      (match mapping with
       | [] => .error .emptyLetUnpack
       | _ :: _ =>
         evaluate fuel
           (.beta (.lam (mapping.map Prod.fst) body env (some "let")) (mapping.map Prod.snd) [])
           (Env.update env mapping))
    | .bool b => .ok (.bool b)
    | .token nm tvs => .ok (.token nm tvs)

/-- The two parameter variables of the built-in `Or_` lambda
(`aa, bb = (Variable(name) for name in 'ab')`). -/
def orVarA : Var := ⟨1, "a"⟩

def orVarB : Var := ⟨2, "b"⟩

/-- The built-in `Or_ = Lambda((aa, bb), If(aa, True, bb), name='Or_')`. -/
def Or_ : Expr :=
  .lam [orVarA, orVarB] (.ifE (.var orVarA) (.bool true) (.var orVarB)) [] (some "Or_")

mutual
/-- Structural equality of expressions, mirroring the attrs-generated
`__eq__` of the expression classes (`Variable` equality is by identity,
embedded as `Var` equality).  Only used as the dictionary-key equality of
plan part mappings; Python compares `frozendict` fields order-insensitively,
but expression-valued dictionary keys never arise from the sketch moves
(the key pool holds only variables), so the order-sensitive comparison of
the `closed`/`kwargs`/`mapping` fields below is never the deciding test. -/
def Expr.beq : Expr → Expr → Bool
  | .bool a, .bool b => a == b
  | .var a, .var b => a == b
  | .lam v1 b1 c1 n1, .lam v2 b2 c2 n2 =>
    v1 == v2 && Expr.beq b1 b2 && Expr.beqPairs c1 c2 && n1 == n2
  | .beta h1 a1 k1, .beta h2 a2 k2 =>
    Expr.beq h1 h2 && Expr.beqList a1 a2 && Expr.beqPairs k1 k2
  | .ifE c1 t1 e1, .ifE c2 t2 e2 => Expr.beq c1 c2 && Expr.beq t1 t2 && Expr.beq e1 e2
  | .letE m1 b1, .letE m2 b2 => Expr.beqPairs m1 m2 && Expr.beq b1 b2
  | .token n1 v1, .token n2 v2 => n1 == n2 && v1 == v2
  | _, _ => false

def Expr.beqList : List Expr → List Expr → Bool
  | [], [] => true
  | x :: xs, y :: ys => Expr.beq x y && Expr.beqList xs ys
  | _, _ => false

def Expr.beqPairs : List (Var × Expr) → List (Var × Expr) → Bool
  | [], [] => true
  | (k1, v1) :: xs, (k2, v2) :: ys => k1 == k2 && Expr.beq v1 v2 && Expr.beqPairs xs ys
  | _, _ => false
end

/-! ## The plan graph (`examples/example1.py`, record layout from
`genlisp/world.py`) -/

/-- The compound-expression heads a plan can be started with
(`expression_heads = (Let, Lambda, Beta, If)`); a plan's `head` attribute is
the corresponding Python class. -/
inductive Head where
  | lamH
  | betaH
  | ifH
  | letH
deriving DecidableEq, Repr

/-- A value connectable into a plan slot, i.e. an element of the plug pools
of `Sketch.connection_plug_choice`: `bool` literals, variables, already
built expressions (e.g. `Nand` seeded by `LimitedSketch`), other plans —
referenced through their arena identity, mirroring the identity-keyed
`ExpressionPlan` objects — and the cosmetic name strings installed into
`name` components by the `NewCompoundExpression` move. -/
inductive Plug where
  | boolP (b : Bool)
  | varP (v : Var)
  | exprP (e : Expr)
  | planP (id : Nat)
  | strP (s : String)

/-- What `ExpressionPlan.parts` holds for one component: the raw value of a
scalar component, the tuple of a `VariableTuple` component, or the
dictionary of a `VariableMapping` component. -/
inductive PartVal where
  | single (p : Plug)
  | tup (vs : List Plug)
  | pmap (m : List (Plug × Plug))

/-- The `ExpressionPlan` record (declared in `genlisp/world.py`; `examples/example1.py`
imports the same-named class from the absent `genlisp.game` module): a head
class, a mutable `parts` dict from component name to connected value, and a
`finished` flag.  The identity-bearing `uuid` is the arena key under which
the node is stored, so it does not reappear as a field here. -/
structure PlanNode where
  head : Head
  parts : List (String × PartVal)
  finished : Bool

/-- The plan arena: identity → plan node.  Python passes `ExpressionPlan`
objects by reference and keys sets/dicts by their identity hash; the
embedding makes the identities explicit as `Nat` keys. -/
abbrev Graph : Type := List (Nat × PlanNode)

def Graph.lookup : Graph → Nat → Option PlanNode
  | [], _ => none
  | (k, n) :: rest, i => if k = i then some n else Graph.lookup rest i

/-- Replace the node stored under an identity (mutation of the plan object
that all referencing collections observe). -/
def Graph.set : Graph → Nat → PlanNode → Graph
  | [], _, _ => []
  | (k, n) :: rest, i, n' => if k = i then (k, n') :: rest else (k, n) :: Graph.set rest i n'

/-- The value categories that drive both `Sketch.update`'s connect dispatch
and `compile_expression_plan`'s per-component dispatch: `typing_` is
`Expression`, `Lambda`, `VariableTuple`, `VariableMapping` or `str`. -/
inductive CompTyping where
  | exprT
  | lambdaT
  | vtupleT
  | vmapT
  | strT
deriving DecidableEq, Repr

/-- The `expression_models` table of `genlisp/base.py`: component name to
declared `typing_`, per head. -/
def componentTyping : Head → String → Option CompTyping
  | .lamH, "variables" => some .vtupleT
  | .lamH, "body" => some .exprT
  | .lamH, "name" => some .strT
  | .betaH, "head" => some .lambdaT
  | .betaH, "kwargs" => some .vmapT
  | .ifH, "condition" => some .exprT
  | .ifH, "if_clause" => some .exprT
  | .ifH, "else_clause" => some .exprT
  | .letH, "mapping" => some .vmapT
  | .letH, "body" => some .exprT
  | _, _ => none

/-- The set `ExpressionModel.required_components()` per head. -/
def requiredComponents : Head → List String
  | .lamH => ["variables", "body"]
  | .betaH => ["head"]
  | .ifH => ["condition", "if_clause", "else_clause"]
  | .letH => ["mapping", "body"]

/-- The component defaults installed by the `NewCompoundExpression` branch of
`Sketch.update`: components with an `init` factory get an empty tuple/dict,
and `str`-typed components get a random canned name (supplied here by the
caller, standing in for `random.choice(canned_names)`). -/
def initParts (h : Head) (nameChoice : String) : List (String × PartVal) :=
  match h with
  | .lamH => [("variables", .tup []), ("name", .single (.strP nameChoice))]
  | .betaH => [("kwargs", .pmap [])]
  | .ifH => []
  | .letH => [("mapping", .pmap [])]

/-- Dictionary-key equality for plan part mappings, following Python
equality on the connectable values: `bool` and `str` by value, `Variable`
by identity, plans by identity (their arena key), expressions structurally
(attrs `__eq__`); values of different kinds are never equal. -/
def plugKeyEq : Plug → Plug → Bool
  | .boolP a, .boolP b => a == b
  | .varP a, .varP b => a == b
  | .exprP a, .exprP b => Expr.beq a b
  | .planP a, .planP b => a == b
  | .strP a, .strP b => a == b
  | _, _ => false

/-- Dictionary insertion `parts[name][k] = v` on a `VariableMapping` component: replace the value
of an existing equal key in place, else append (Python dict insertion keeps
the original position of an overwritten key). -/
def pmapInsert : List (Plug × Plug) → Plug → Plug → List (Plug × Plug)
  | [], k, v => [(k, v)]
  | (k', v') :: rest, k, v =>
    if plugKeyEq k' k then (k', v) :: rest else (k', v') :: pmapInsert rest k v

def partsLookup : List (String × PartVal) → String → Option PartVal
  | [], _ => none
  | (nm, pv) :: rest, s => if nm = s then some pv else partsLookup rest s

/-- Dictionary insertion `parts[name] = value`: overwrite in place, else append (dict insertion
order). -/
def partsSet : List (String × PartVal) → String → PartVal → List (String × PartVal)
  | [], s, pv => [(s, pv)]
  | (nm, pv') :: rest, s, pv =>
    if nm = s then (nm, pv) :: rest else (nm, pv') :: partsSet rest s pv

/-- Python `list.remove(x)`: drop the first occurrence, `none` when absent (Python
raises `ValueError`). -/
def removeFirst : List Nat → Nat → Option (List Nat)
  | [], _ => none
  | x :: rest, i =>
    if x = i then some rest
    else
      match removeFirst rest i with
      | some l => some (x :: l)
      | none => none

/-- The completeness check `expression_models[head].required_components() <= set(parts.keys())`. -/
def requiredSubset (req : List String) (keys : List String) : Bool :=
  req.all (fun r => keys.contains r)

/-- The membership test `ref.base.parts['head'] in GenLispCallable.args`: it tests
the connected head value for equality with the *classes* `Lambda` and
`FunctionToken` themselves.  No connectable value (an instance, plan,
variable, literal or string) is equal to a class, so the membership is
`False` for every representable plug. -/
def plugInGenLispCallableClasses (_p : Plug) : Bool := false

/-- The attribute `.variables` of the connected head value, as read by the second disjunct
`set(parts['head'].variables) <= set(parts['kwargs'])` (only meaningful for
`Lambda`/`FunctionToken` instances; the access is short-circuited away for
everything else because the first disjunct of the `or` is always true). -/
def expectedHeadVars : Plug → List Var
  | .exprP (.lam vs _ _ _) => vs
  | .exprP (.token _ vs) => vs
  | _ => []

/-- The check `v ∈ set(parts['kwargs'])`: the token parameter `v` occurs among the
keyword-argument dictionary keys. -/
def pmapHasVarKey (m : List (Plug × Plug)) (v : Var) : Bool :=
  m.any (fun p => plugKeyEq p.1 (.varP v))

/-- The kind-specific side constraint checked by `Sketch.update` once a plan
is structurally full:

```
if ref.base.parts['head'] == Beta:
    ok = (not ref.base.parts['head'] in GenLispCallable.args or
          set(ref.base.parts['head'].variables) <= set(ref.base.parts['kwargs']))
else:
    ok = True
```

For a `Beta` plan the first disjunct compares the connected head value
against the classes `Lambda`/`FunctionToken` (see
`plugInGenLispCallableClasses`), so the guard reduces to `true` for every
connectable value and the parameter-coverage disjunct is dead. -/
def betaOk (h : Head) (parts : List (String × PartVal)) : Bool :=
  match h with
  | .betaH =>
    match partsLookup parts "head" with
    | some (.single hp) =>
      !plugInGenLispCallableClasses hp
        || (expectedHeadVars hp).all
            (fun v =>
              match partsLookup parts "kwargs" with
              | some (.pmap m) => pmapHasVarKey m v
              | _ => false)
    | _ => true
  | _ => true

/-- The mutable construction state (`Sketch` in `examples/example1.py`):
the plan arena plus the collections `unfinished_expressions`,
`finished_expressions`, `variables` and `variable_bindings`.  Plans are
stored once, in `graph`, and referenced by identity from the two lists,
mirroring Python's shared object references. -/
structure Sketch where
  graph : Graph
  unfinished : List Nat
  finished : List Nat
  vars : List Var
  bindings : List (Plug × Nat)

/-- The move vocabulary consumed by `Sketch.update` (`CodeChoice`).
Randomness is externalized: the fresh arena identity and canned name of
`NewCompoundExpression` and the fresh variable of
`new_auto_named_variable` are supplied by the caller. -/
inductive CodeChoice where
  | newCompound (id : Nat) (t : Head) (nameChoice : String)
  | connect (baseId : Nat) (comp : String) (plugs : List Plug)
  | newAutoNamedVariable (v : Var)
  | newLiteral

/-- Errors `Sketch.update` can raise: `removeMissing` is the `ValueError`
from `unfinished_expressions.remove`, `indexError`/`unpackError` come from
`choice.plugs[0]` / `k, v = choice.plugs`, `keyError`/`typeError` from
operating on an absent or wrongly-shaped part, `missingPlan`/
`missingComponent` are unreachable for states built by the moves (Python
holds the plan object and model entry directly), and `notImplemented` is
the literal `NotImplementedError` of the `NewLiteralChoice` branch. -/
inductive UpdateErr where
  | removeMissing
  | indexError
  | unpackError
  | keyError
  | typeError
  | missingPlan
  | missingComponent
  | notImplemented
deriving DecidableEq, Repr

/-- The connect-branch installation step of `Sketch.update`, dispatching on
the component's declared `typing_`:

* `typing_ is Expression` → `parts[name] = plugs[0]` (unconditional
  overwrite of a scalar slot; surplus plugs are ignored);
* `typing_ is VariableTuple` → `parts[name] += tuple(plugs)` and each plug
  is recorded in `variable_bindings`;
* `typing_ is VariableMapping` → `k, v = plugs; parts[name][k] = v`;
* any other `typing_` (`Lambda` for `Beta.head`, `str` for `Lambda.name`)
  matches none of the `if/elif` branches, so *nothing is installed*. -/
def installPart (ty : CompTyping) (parts : List (String × PartVal)) (comp : String)
    (plugs : List Plug) (bindings : List (Plug × Nat)) (baseId : Nat) :
    Except UpdateErr (List (String × PartVal) × List (Plug × Nat)) :=
  match ty with
  | .exprT =>
    match plugs with
    | p :: _ => .ok (partsSet parts comp (.single p), bindings)
    | [] => .error .indexError
  | .vtupleT =>
    (match partsLookup parts comp with
     | some (.tup vs) =>
       .ok (partsSet parts comp (.tup (vs ++ plugs)),
         bindings ++ plugs.map (fun p => (p, baseId)))
     | some _ => .error .typeError
     | none => .error .keyError)
  | .vmapT =>
    (match plugs with
     | [k, v] =>
       match partsLookup parts comp with
       | some (.pmap m) => .ok (partsSet parts comp (.pmap (pmapInsert m k v)), bindings)
       | some _ => .error .typeError
       | none => .error .keyError
     | _ => .error .unpackError)
  | .lambdaT => .ok (parts, bindings)
  | .strT => .ok (parts, bindings)

/-- The move interpreter `Sketch.update(choice)` from `examples/example1.py`.

The `ConnectionChoice` branch installs the plugs per `installPart`, then —
whatever was or was not installed — checks structural completeness
(`required_components() <= parts.keys()`) and the `Beta` side constraint
(`betaOk`); when both hold the plan is appended to
`finished_expressions`, removed from `unfinished_expressions` (Python's
`list.remove`, raising when absent) and its `finished` flag set.  A plan
whose required components never become present (notably `Beta`, whose
`head` slot no branch installs) can never take this transition. -/
def Sketch.update (s : Sketch) (c : CodeChoice) : Except UpdateErr Sketch :=
  match c with
  | .newCompound id t nameChoice =>
    .ok { s with graph := s.graph ++ [(id, ⟨t, initParts t nameChoice, false⟩)],
                 unfinished := s.unfinished ++ [id] }
  | .newAutoNamedVariable v => .ok { s with vars := s.vars ++ [v] }
  | .newLiteral => .error .notImplemented
  | .connect baseId comp plugs =>
    match s.graph.lookup baseId with
    | none => .error .missingPlan
    | some node =>
      match componentTyping node.head comp with
      | none => .error .missingComponent
      | some ty =>
        match installPart ty node.parts comp plugs s.bindings baseId with
        | .error e => .error e
        | .ok (parts', bindings') =>
          if requiredSubset (requiredComponents node.head) (parts'.map Prod.fst)
              && betaOk node.head parts' then
            match removeFirst s.unfinished baseId with
            | none => .error .removeMissing
            | some unfin' =>
              .ok { s with graph := s.graph.set baseId ⟨node.head, parts', true⟩,
                           finished := s.finished ++ [baseId],
                           unfinished := unfin',
                           bindings := bindings' }
          else
            .ok { s with graph := s.graph.set baseId ⟨node.head, parts', node.finished⟩,
                         bindings := bindings' }

/-! ## The plan compiler (`compile_expression_plan` / `compile_sketch`) -/

/-- A compiled expression as produced by `expression_plan.head(**compiled_parts)`:
the constructor of the plan's head class applied to the resolved components.
`ceNone` is the Python `None` a cyclic or unfinished sub-reference resolves
to; `ceExpr`/`ceVar`/`ceBool`/`ceStr` are non-plan plug values resolved to
themselves.  A compiled `Beta` has no positional-argument component (the
model declares none, so `args` takes its `()` default), a compiled `Lambda`
keeps its raw `variables` tuple and takes the empty-`closed` default, and
the mapping components are rebuilt as `ImmutableMap`s keyed by the original
keys. -/
inductive CE where
  | ceNone
  | ceBool (b : Bool)
  | ceVar (v : Var)
  | ceStr (s : String)
  | ceExpr (e : Expr)
  | lamE (vars : List Plug) (body : CE) (name : CE)
  | betaE (head : CE) (kwargs : List (Plug × CE))
  | ifE (condition if_clause else_clause : CE)
  | letE (mapping : List (Plug × CE)) (body : CE)

/-- One entry of `compiled_parts`: a resolved scalar component, a
`VariableTuple` kept as-is, or a rebuilt `VariableMapping`. -/
inductive CPart where
  | one (c : CE)
  | tupC (vs : List Plug)
  | pmapC (m : List (Plug × CE))

/-- A non-plan value resolves to itself (`return expression_plan, True`).
`planP` never reaches this function — plan references are resolved through
the memo/trace machinery — so it maps to the placeholder. -/
def toCE : Plug → CE
  | .boolP b => .ceBool b
  | .varP v => .ceVar v
  | .exprP e => .ceExpr e
  | .strP s => .ceStr s
  | .planP _ => .ceNone

/-- The `expressions` memo: plan identity → (compiled expression,
well-formed flag).  Entries are appended in completion order, matching
Python dict insertion order. -/
abbrev Memo : Type := List (Nat × CE × Bool)

/-- The order in which plan nodes complete compilation (each id is appended
exactly when its memo entry is written); `compile_sketch` in Python has no
separate log, but the memo's key order carries the same information and the
explicit list makes the single-compilation property directly statable. -/
abbrev Log : Type := List Nat

def Memo.lookup : Memo → Nat → Option (CE × Bool)
  | [], _ => none
  | (k, e) :: rest, i => if k = i then some e else Memo.lookup rest i

def cpartsLookup : List (String × CPart) → String → Option CPart
  | [], _ => none
  | (nm, c) :: rest, s => if nm = s then some c else cpartsLookup rest s

def scalarCE (cparts : List (String × CPart)) (nm : String) : CE :=
  match cpartsLookup cparts nm with
  | some (.one c) => c
  | _ => .ceNone

def mapCE (cparts : List (String × CPart)) (nm : String) : List (Plug × CE) :=
  match cpartsLookup cparts nm with
  | some (.pmapC m) => m
  | _ => []

def tupCE (cparts : List (String × CPart)) (nm : String) : List Plug :=
  match cpartsLookup cparts nm with
  | some (.tupC vs) => vs
  | _ => []

/-- The constructor call `expression_plan.head(**compiled_parts)`: invoke the head class's
constructor with the resolved components.  Components absent from
`compiled_parts` take the attrs defaults (`kwargs`/`mapping` → empty
`frozendict`, `name` → `None`, `closed` → empty, `args` → `()`); a missing
*required* component would raise in Python but only finished plans — which
have all required components — are ever built. -/
def buildCE (h : Head) (cparts : List (String × CPart)) : CE :=
  match h with
  | .lamH => .lamE (tupCE cparts "variables") (scalarCE cparts "body") (scalarCE cparts "name")
  | .betaH => .betaE (scalarCE cparts "head") (mapCE cparts "kwargs")
  | .ifH => .ifE (scalarCE cparts "condition") (scalarCE cparts "if_clause")
      (scalarCE cparts "else_clause")
  | .letH => .letE (mapCE cparts "mapping") (scalarCE cparts "body")

def isVarPlug : Plug → Bool
  | .varP _ => true
  | _ => false

def isStrPlug : Plug → Bool
  | .strP _ => true
  | _ => false

/-- Resolve every value of a `VariableMapping` component
(`{kk: compile_expression_plan(vv, ...) for kk, vv in component_value.items()}`),
rebuilding the mapping from the original keys and the compiled values and
AND-ing the per-value well-formedness flags. -/
def compileMapVals (cp : Plug → Memo → Log → Option ((CE × Bool) × Memo × Log)) :
    List (Plug × Plug) → Memo → Log → Option ((List (Plug × CE) × Bool) × Memo × Log)
  | [], memo, log => some (([], true), memo, log)
  | (k, v) :: rest, memo, log =>
    match cp v memo log with
    | none => none
    | some ((ce, wf), memo₁, log₁) =>
      match compileMapVals cp rest memo₁ log₁ with
      | none => none
      | some ((crest, wfrest), memo₂, log₂) =>
        some (((k, ce) :: crest, wf && wfrest), memo₂, log₂)

/-- Resolve one component of a plan according to its declared `typing_`:
`Expression`/`Lambda` components resolve their value recursively,
`VariableMapping` components resolve every value, `VariableTuple`
components are kept as-is and are well-formed iff every element is a
`Variable`, and anything else (the `str`-typed `name`) is kept as-is and
well-formed iff its runtime type matches (`isinstance(value, typing_)`).
The fall-through arm covers part shapes that no sketch move can produce. -/
def compileOnePart (cp : Plug → Memo → Log → Option ((CE × Bool) × Memo × Log))
    (ty : Option CompTyping) (pv : PartVal) (memo : Memo) (log : Log) :
    Option ((CPart × Bool) × Memo × Log) :=
  match ty, pv with
  | some .exprT, .single p =>
    (match cp p memo log with
     | none => none
     | some ((ce, wf), memo₁, log₁) => some ((.one ce, wf), memo₁, log₁))
  | some .lambdaT, .single p =>
    (match cp p memo log with
     | none => none
     | some ((ce, wf), memo₁, log₁) => some ((.one ce, wf), memo₁, log₁))
  | some .vmapT, .pmap m =>
    (match compileMapVals cp m memo log with
     | none => none
     | some ((cm, wf), memo₁, log₁) => some ((.pmapC cm, wf), memo₁, log₁))
  | some .vtupleT, .tup vs => some ((.tupC vs, vs.all isVarPlug), memo, log)
  | some .strT, .single p => some ((.one (toCE p), isStrPlug p), memo, log)
  | _, _ => some ((.one .ceNone, false), memo, log)

/-- Resolve all components of `expression_plan.parts` in insertion order,
threading the memo/log and AND-ing the component flags into
`top_is_well_formed`. -/
def compileParts (cp : Plug → Memo → Log → Option ((CE × Bool) × Memo × Log))
    (ty : String → Option CompTyping) :
    List (String × PartVal) → Memo → Log →
      Option ((List (String × CPart) × Bool) × Memo × Log)
  | [], memo, log => some (([], true), memo, log)
  | (nm, pv) :: rest, memo, log =>
    match compileOnePart cp (ty nm) pv memo log with
    | none => none
    | some ((cpart, wf), memo₁, log₁) =>
      match compileParts cp ty rest memo₁ log₁ with
      | none => none
      | some ((crest, wfrest), memo₂, log₂) =>
        some (((nm, cpart) :: crest, wf && wfrest), memo₂, log₂)

/-- The function `compile_expression_plan(expression_plan, expressions, trace,
unfinished_expressions)`, step-indexed by fuel (a unit is spent each time a
plan node is entered for building; the sufficiency theorem shows any fuel
above the number of untraced plan ids never runs out).

The checks run in source order: first the cycle/unfinished guard (returning
`(None, False)` at once), then the memo, then the plan-vs-value dispatch.
A plan is entered by pushing its id on the trace, compiling its parts under
the extended trace, building the expression, memoizing it and logging the
id; Python then pops the trace, which the call-local `id :: trace` models.
A graph miss is unreachable (Python holds the referenced plan object
itself) and resolves conservatively to `(None, False)`. -/
def compilePlug (g : Graph) (unfin : List Nat) :
    Nat → Plug → Memo → List Nat → Log → Option ((CE × Bool) × Memo × Log)
  | fuel, .planP id, memo, trace, log =>
    if trace.contains id || unfin.contains id then some ((.ceNone, false), memo, log)
    else
      match Memo.lookup memo id with
      | some (ce, wf) => some ((ce, wf), memo, log)
      | none =>
        match g.lookup id with
        | none => some ((.ceNone, false), memo, log)
        | some node =>
          match fuel with
          | 0 => none
          | fuel' + 1 =>
            match compileParts (fun q mm ll => compilePlug g unfin fuel' q mm (id :: trace) ll)
                (componentTyping node.head) node.parts memo log with
            | none => none
            | some ((cparts, wf), memo₁, log₁) =>
              let ce := buildCE node.head cparts
              some ((ce, wf), memo₁ ++ [(id, ce, wf)], log₁ ++ [id])
  | _, p, memo, _, log => some ((toCE p, true), memo, log)

/-- The driver loop of `compile_sketch`: resolve every finished plan for its
memo side effect.  The `visited` trace set is empty between top-level calls
(every build pushes and pops it in balance), so each call starts from the
empty trace. -/
def compileSketchAux (g : Graph) (unfin : List Nat) (fuel : Nat) :
    List Nat → Memo → Log → Option (Memo × Log)
  | [], memo, log => some (memo, log)
  | id :: rest, memo, log =>
    match compilePlug g unfin fuel (.planP id) memo [] log with
    | none => none
    | some (_, memo', log') => compileSketchAux g unfin fuel rest memo' log'

/-- The driver `compile_sketch(sketch)`: compile every finished plan, then collect the
memo values whose flag is true (in memo insertion order) as
`well_formed_expressions`. -/
def compileSketch (s : Sketch) (fuel : Nat) : Option (Memo × Log × List CE) :=
  match compileSketchAux s.graph s.unfinished fuel s.finished [] [] with
  | none => none
  | some (memo, log) =>
    some (memo, log, memo.filterMap (fun e => if e.2.2 then some e.2.1 else none))

/-- The plan identities not yet being visited: the fuel the compiler can
still spend. -/
def remaining (g : Graph) (trace : List Nat) : List Nat :=
  (g.map Prod.fst).filter (fun i => !(trace.contains i))

/-- Coherence of the compiler state: no plan currently being visited has a
memo entry yet (Python adds a plan to `expressions` only after popping it
from `trace`), each plan has at most one memo entry, and the build log is
exactly the memo's key sequence (an entry is logged exactly when it is
memoized). -/
def MemoCoherent (memo : Memo) (trace : List Nat) (log : Log) : Prop :=
  (∀ i ∈ trace, i ∉ memo.map Prod.fst)
    ∧ (memo.map Prod.fst).Nodup
    ∧ log = memo.map Prod.fst

/-! ## Concrete instances used by the claims -/

def fV : Var := ⟨10, "f"⟩

def vV : Var := ⟨11, "v"⟩

def uV : Var := ⟨12, "u"⟩

def wV : Var := ⟨13, "w"⟩

def llV : Var := ⟨20, "l"⟩

def laV : Var := ⟨21, "a"⟩

def kV : Var := ⟨30, "k"⟩

/-- The recursive lambda of `test_base.py::test_recursive`:
`Lambda((aa,), If(aa, aa, Beta(ll, (Beta(Or_, (True, aa)),))), name='recursive')`. -/
def recLam : Expr :=
  .lam [laV]
    (.ifE (.var laV) (.var laV) (.beta (.var llV) [.beta Or_ [.bool true, .var laV] []] []))
    [] (some "recursive")

/-- One of two mutually-referencing finished `If` plans: its `condition`
slot is connected to the other plan, the branches to literals. -/
def cycNode (other : Nat) : PlanNode :=
  ⟨.ifH,
    [("condition", .single (.planP other)), ("if_clause", .single (.boolP true)),
      ("else_clause", .single (.boolP true))], true⟩

/-- A sketch whose two finished plans reference each other
(A.condition ↦ B, B.condition ↦ A): the §8 compiler-termination scenario. -/
def cycSketch : Sketch := ⟨[(0, cycNode 1), (1, cycNode 0)], [], [0, 1], [], []⟩

/-- A finished `If` plan with only literal components (the shared sub-plan
of the memoization scenario). -/
def dagSub : PlanNode :=
  ⟨.ifH,
    [("condition", .single (.boolP true)), ("if_clause", .single (.boolP true)),
      ("else_clause", .single (.boolP false))], true⟩

/-- A finished `If` plan whose `condition` slot is connected to plan `0`
(the shared sub-plan). -/
def dagParent : PlanNode :=
  ⟨.ifH,
    [("condition", .single (.planP 0)), ("if_clause", .single (.boolP true)),
      ("else_clause", .single (.boolP true))], true⟩

/-- A sketch in which the finished plans `1` and `2` both reference the
finished sub-plan `0`: the DAG-sharing memoization scenario. -/
def dagSketch : Sketch :=
  ⟨[(0, dagSub), (1, dagParent), (2, dagParent)], [], [1, 2, 0], [], []⟩

/-- The compiled shared sub-plan. -/
def dagSubCE : CE := .ifE (.ceBool true) (.ceBool true) (.ceBool false)

/-- The compiled parent plans: both embed the sub-plan's single compiled
expression. -/
def dagParentCE : CE := .ifE dagSubCE (.ceBool true) (.ceBool true)

/-- An unfinished `Beta` plan whose `head` part holds the primitive token
`Nand` and whose keyword-argument part is still empty: the premise state of
the `Beta` side-constraint claim (reachable only by direct construction —
no connect move can install a `Beta` head, because the dispatch in
`Sketch.update` tests `typing_ is Expression` and `head` is declared with
`typing_=Lambda`). -/
def c4BetaNode : PlanNode :=
  ⟨.betaH, [("head", .single (.exprP Nand)), ("kwargs", .pmap [])], false⟩

def c4Sketch : Sketch := ⟨[(0, c4BetaNode)], [0], [], [kV], []⟩

/-- An unfinished `If` plan whose scalar `condition` slot is already
occupied by the literal `True`. -/
def c6IfNode : PlanNode := ⟨.ifH, [("condition", .single (.boolP true))], false⟩

def c6Sketch : Sketch := ⟨[(0, c6IfNode)], [0], [], [], []⟩

/-! ## Association-list lemmas for the environment -/

theorem Env.lookup_append (a b : Env) (k : Var) :
    Env.lookup (a ++ b) k =
      match Env.lookup a k with
      | some v => some v
      | none => Env.lookup b k := by
  induction a with
  | nil => rfl
  | cons p rest ih =>
    obtain ⟨k', v'⟩ := p
    by_cases h : k' = k
    · simp [Env.lookup, h]
    · simp [Env.lookup, h, ih]

theorem Env.lookup_eq_none_of_not_mem (l : Env) (k : Var) (h : k ∉ l.map Prod.fst) :
    Env.lookup l k = none := by
  induction l with
  | nil => rfl
  | cons p rest ih =>
    obtain ⟨k', v'⟩ := p
    simp only [List.map_cons, List.mem_cons] at h
    push_neg at h
    have hne : ¬k' = k := fun e => h.1 e.symm
    simp [Env.lookup, hne, ih h.2]

theorem Env.exists_lookup_of_mem (l : Env) (k : Var) (h : k ∈ l.map Prod.fst) :
    ∃ v, Env.lookup l k = some v := by
  induction l with
  | nil => simp at h
  | cons p rest ih =>
    obtain ⟨k', v'⟩ := p
    by_cases hk : k' = k
    · exact ⟨v', by simp [Env.lookup, hk]⟩
    · simp only [List.map_cons, List.mem_cons] at h
      rcases h with h | h
      · exact absurd h.symm hk
      · obtain ⟨v, hv⟩ := ih h
        exact ⟨v, by simp [Env.lookup, hk, hv]⟩

theorem Env.lookup_reverse_of_nodup (m : Env) (k : Var) (h : (m.map Prod.fst).Nodup) :
    Env.lookup m.reverse k = Env.lookup m k := by
  induction m with
  | nil => rfl
  | cons p rest ih =>
    obtain ⟨k', v'⟩ := p
    simp only [List.map_cons, List.nodup_cons] at h
    rw [List.reverse_cons, Env.lookup_append]
    by_cases hk : k' = k
    · subst hk
      have hnone : Env.lookup rest.reverse k' = none := by
        apply Env.lookup_eq_none_of_not_mem
        simpa using h.1
      simp [hnone, Env.lookup]
    · rw [ih h.2]
      cases hrest : Env.lookup rest k with
      | some v => simp [Env.lookup, hk, hrest]
      | none => simp [Env.lookup, hk, hrest]

theorem Env.lookup_update_not_mem (e : Env) (ps : List (Var × Expr)) (k : Var)
    (h : k ∉ ps.map Prod.fst) :
    Env.lookup (Env.update e ps) k = Env.lookup e k := by
  have hrev : Env.lookup ps.reverse k = none := by
    apply Env.lookup_eq_none_of_not_mem
    simpa using h
  rw [Env.update, Env.lookup_append, hrev]

/-! ## Unfold lemmas for the evaluator -/

/-- The `Beta`-with-`Lambda`-head case of `evaluate`, as an equation: once
the head, the keyword arguments and the first `len(ll.variables)`
positional arguments have evaluated, the body runs under
`variable_mapping.update(chain(ll.closed.items(), zip(...), evaluated_kwargs))`. -/
theorem evaluate_beta_lam (n : Nat) (env : Env) (hd : Expr) (args : List Expr)
    (kwargs : List (Var × Expr)) (vs : List Var) (body : Expr) (closed : Env) (nm : Option String)
    (eargs : List Expr) (ekw : List (Var × Expr))
    (hh : evaluate n hd env = .ok (.lam vs body closed nm))
    (hkw : evalExceptList (fun p => (evaluate n p.2 env).map (fun v => (p.1, v))) kwargs = .ok ekw)
    (ha : evalExceptList (fun x => evaluate n x env) (args.take vs.length) = .ok eargs) :
    evaluate (n + 1) (.beta hd args kwargs) env
      = evaluate n body (Env.update env (closed ++ vs.zip eargs ++ ekw)) := by
  simp [evaluate, hh, hkw, ha]

/-- The `Let` case of `evaluate`, as an equation: for a non-empty binding
mapping, `evaluate(Let(m, body), env)` is exactly
`evaluate(Beta(Lambda(vars, body, closed=env, name='let'), values), env.update(m))`. -/
theorem evaluate_letE_cons (n : Nat) (m : List (Var × Expr)) (body : Expr) (env : Env)
    (hm : m ≠ []) :
    evaluate (n + 1) (.letE m body) env
      = evaluate n
          (.beta (.lam (m.map Prod.fst) body env (some "let")) (m.map Prod.snd) [])
          (Env.update env m) := by
  cases m with
  | nil => exact absurd rfl hm
  | cons p rest => simp [evaluate]

/-- If every element of a list evaluates, so does the list, with one result
per element. -/
theorem evalExceptList_ok_of_all (n : Nat) (env' : Env) (l : List Expr)
    (h : ∀ x ∈ l, ∃ u, evaluate n x env' = .ok u) :
    ∃ res, evalExceptList (fun x => evaluate n x env') l = .ok res ∧ res.length = l.length := by
  induction l with
  | nil => exact ⟨[], rfl, rfl⟩
  | cons x rest ih =>
    obtain ⟨u, hu⟩ := h x (List.mem_cons_self _ _)
    obtain ⟨res, hres, hlen⟩ := ih (fun y hy => h y (List.mem_cons_of_mem _ hy))
    exact ⟨u :: res, by simp [evalExceptList, hu, hres], by simp [hlen]⟩

/-- Evaluating the values of a key-distinct binding list and zipping them
back onto the keys binds each key to the evaluation of its own value; in
particular looking `v` up in the reversed zip (the precedence order of
`frozendict.update`) yields the value `v`'s own initializer evaluated to. -/
theorem evalList_zip_lookup (n : Nat) (env' : Env) (m : List (Var × Expr)) (v : Var) (E : Expr)
    (hnodup : (m.map Prod.fst).Nodup) (hmem : (v, E) ∈ m)
    (hall : ∀ p ∈ m, ∃ u, evaluate n p.2 env' = .ok u) :
    ∃ eargs w,
      evalExceptList (fun x => evaluate n x env') (m.map Prod.snd) = .ok eargs
      ∧ Env.lookup ((m.map Prod.fst).zip eargs).reverse v = some w
      ∧ evaluate n E env' = .ok w := by
  induction m with
  | nil => simp at hmem
  | cons p rest ih =>
    obtain ⟨k, e⟩ := p
    simp only [List.map_cons, List.nodup_cons] at hnodup
    rcases List.mem_cons.mp hmem with heq | hmem'
    · injection heq with h1 h2
      subst h1
      subst h2
      obtain ⟨u, hu⟩ := hall (v, E) (List.mem_cons_self _ _)
      obtain ⟨res, hres, hlen⟩ := evalExceptList_ok_of_all n env' (rest.map Prod.snd)
        (fun x hx => by
          obtain ⟨a, ha, rfl⟩ := List.mem_map.mp hx
          exact hall a (List.mem_cons_of_mem _ ha))
      refine ⟨u :: res, u, ?_, ?_, hu⟩
      · simp [evalExceptList, hu, hres]
      · simp only [List.map_cons, List.zip_cons_cons, List.reverse_cons]
        rw [Env.lookup_append]
        have hnone : Env.lookup ((rest.map Prod.fst).zip res).reverse v = none := by
          apply Env.lookup_eq_none_of_not_mem
          rw [List.map_reverse, List.map_fst_zip _ _ (by simp [hlen])]
          simpa using hnodup.1
        simp [hnone, Env.lookup]
    · obtain ⟨u, hu⟩ := hall (k, e) (List.mem_cons_self _ _)
      obtain ⟨eargs', w, h1, h2, h3⟩ := ih hnodup.2 hmem'
        (fun p hp => hall p (List.mem_cons_of_mem _ hp))
      refine ⟨u :: eargs', w, ?_, ?_, h3⟩
      · simp [evalExceptList, hu, h1]
      · simp only [List.map_cons, List.zip_cons_cons, List.reverse_cons]
        rw [Env.lookup_append, h2]

/-! ## Compiler lemmas -/

theorem length_filter_mono {α : Type} (l : List α) (p q : α → Bool)
    (himp : ∀ x, q x = true → p x = true) :
    (l.filter q).length ≤ (l.filter p).length := by
  induction l with
  | nil => simp
  | cons y rest ih =>
    cases hq : q y with
    | true => simp [himp y hq, hq]; omega
    | false => cases hp : p y <;> simp [hp, hq] <;> omega

theorem length_filter_lt {α : Type} (l : List α) (p q : α → Bool)
    (himp : ∀ x, q x = true → p x = true) (x₀ : α) (hx : x₀ ∈ l) (hp : p x₀ = true)
    (hq : q x₀ = false) :
    (l.filter q).length < (l.filter p).length := by
  induction l with
  | nil => simp at hx
  | cons y rest ih =>
    rcases List.mem_cons.mp hx with rfl | hx'
    · have hmono := length_filter_mono rest p q himp
      simp [hp, hq]
      omega
    · cases hqy : q y with
      | true =>
        have hpy := himp y hqy
        simp [hpy, hqy]
        exact ih hx'
      | false =>
        have hlt := ih hx'
        cases hpy : p y <;> simp [hpy, hqy] <;> omega

theorem Graph.lookup_some_mem (g : Graph) (id : Nat) (node : PlanNode)
    (h : g.lookup id = some node) : id ∈ g.map Prod.fst := by
  induction g with
  | nil => simp [Graph.lookup] at h
  | cons p rest ih =>
    obtain ⟨k, n⟩ := p
    by_cases hk : k = id
    · simp [hk]
    · simp only [Graph.lookup, if_neg hk] at h
      simp [ih h]

theorem remaining_cons_lt (g : Graph) (trace : List Nat) (id : Nat)
    (hmem : id ∈ g.map Prod.fst) (hnot : trace.contains id = false) :
    (remaining g (id :: trace)).length < (remaining g trace).length := by
  refine length_filter_lt _ _ _ ?_ id hmem ?_ ?_
  · intro x hx
    simp only [Bool.not_eq_true'] at hx ⊢
    simp only [List.contains_cons, Bool.or_eq_false_iff] at hx
    exact hx.2
  · rw [Bool.not_eq_true']
    exact hnot
  · simp [List.contains_cons]

theorem compilePlug_ne_none (g : Graph) (unfin : List Nat) :
    ∀ (n : Nat) (p : Plug) (memo : Memo) (trace : List Nat) (log : Log),
      (remaining g trace).length < n →
      compilePlug g unfin n p memo trace log ≠ none := by
  intro n
  induction n with
  | zero => exact fun p memo trace log hlt => absurd hlt (Nat.not_lt_zero _)
  | succ n ih =>
    have hmap : ∀ (trace' : List Nat), (remaining g trace').length < n →
        ∀ (m : List (Plug × Plug)) (memo : Memo) (log : Log),
          compileMapVals (fun q mm ll => compilePlug g unfin n q mm trace' ll) m memo log
            ≠ none := by
      intro trace' hb m
      induction m with
      | nil => intro memo log; simp [compileMapVals]
      | cons kv rest ihm =>
        intro memo log
        obtain ⟨k, v⟩ := kv
        simp only [compileMapVals]
        cases hcv : compilePlug g unfin n v memo trace' log with
        | none => exact absurd hcv (ih v memo trace' log hb)
        | some r1 =>
          obtain ⟨⟨ce, wf⟩, memo₁, log₁⟩ := r1
          cases hrest : compileMapVals (fun q mm ll => compilePlug g unfin n q mm trace' ll)
              rest memo₁ log₁ with
          | none => exact absurd hrest (ihm memo₁ log₁)
          | some r2 =>
            obtain ⟨⟨crest, wfrest⟩, memo₂, log₂⟩ := r2
            simp [hcv, hrest]
    have honep : ∀ (trace' : List Nat), (remaining g trace').length < n →
        ∀ (t : Option CompTyping) (pv : PartVal) (memo : Memo) (log : Log),
          compileOnePart (fun q mm ll => compilePlug g unfin n q mm trace' ll) t pv memo log
            ≠ none := by
      intro trace' hb t pv memo log
      cases t with
      | none => cases pv <;> simp [compileOnePart]
      | some ct =>
        cases ct with
        | exprT =>
          cases pv with
          | single p =>
            simp only [compileOnePart]
            cases hcv : compilePlug g unfin n p memo trace' log with
            | none => exact absurd hcv (ih p memo trace' log hb)
            | some r1 =>
              obtain ⟨⟨ce, wf⟩, m1, l1⟩ := r1
              simp [hcv]
          | tup vs => simp [compileOnePart]
          | pmap m => simp [compileOnePart]
        | lambdaT =>
          cases pv with
          | single p =>
            simp only [compileOnePart]
            cases hcv : compilePlug g unfin n p memo trace' log with
            | none => exact absurd hcv (ih p memo trace' log hb)
            | some r1 =>
              obtain ⟨⟨ce, wf⟩, m1, l1⟩ := r1
              simp [hcv]
          | tup vs => simp [compileOnePart]
          | pmap m => simp [compileOnePart]
        | vmapT =>
          cases pv with
          | single p => simp [compileOnePart]
          | tup vs => simp [compileOnePart]
          | pmap m =>
            simp only [compileOnePart]
            cases hcv : compileMapVals (fun q mm ll => compilePlug g unfin n q mm trace' ll)
                m memo log with
            | none => exact absurd hcv (hmap trace' hb m memo log)
            | some r1 =>
              obtain ⟨⟨cm, wf⟩, m1, l1⟩ := r1
              simp [hcv]
        | vtupleT => cases pv <;> simp [compileOnePart]
        | strT => cases pv <;> simp [compileOnePart]
    have hparts : ∀ (trace' : List Nat), (remaining g trace').length < n →
        ∀ (ty : String → Option CompTyping) (ps : List (String × PartVal))
          (memo : Memo) (log : Log),
          compileParts (fun q mm ll => compilePlug g unfin n q mm trace' ll) ty ps memo log
            ≠ none := by
      intro trace' hb ty ps
      induction ps with
      | nil => intro memo log; simp [compileParts]
      | cons x rest ihp =>
        intro memo log
        obtain ⟨nm, pv⟩ := x
        simp only [compileParts]
        cases hone : compileOnePart (fun q mm ll => compilePlug g unfin n q mm trace' ll)
            (ty nm) pv memo log with
        | none => exact absurd hone (honep trace' hb (ty nm) pv memo log)
        | some r1 =>
          obtain ⟨⟨cpart, wf⟩, m1, l1⟩ := r1
          cases hrest : compileParts (fun q mm ll => compilePlug g unfin n q mm trace' ll)
              ty rest m1 l1 with
          | none => exact absurd hrest (ihp m1 l1)
          | some r2 =>
            obtain ⟨⟨crest, wfrest⟩, m2, l2⟩ := r2
            simp [hone, hrest]
    intro p memo trace log hlt
    cases p with
    | boolP b => simp [compilePlug]
    | varP v => simp [compilePlug]
    | exprP e => simp [compilePlug]
    | strP s => simp [compilePlug]
    | planP id =>
      simp only [compilePlug]
      by_cases hguard : id ∈ trace ∨ id ∈ unfin
      · simp [hguard]
      · cases hmemo : Memo.lookup memo id with
        | some cw =>
          obtain ⟨ce, wf⟩ := cw
          simp [hguard, hmemo]
        | none =>
          cases hg : g.lookup id with
          | none => simp [hguard, hmemo, hg]
          | some node =>
            have hmemg : id ∈ g.map Prod.fst := Graph.lookup_some_mem g id node hg
            have hnotr : trace.contains id = false := by
              push_neg at hguard
              simpa using hguard.1
            have hb : (remaining g (id :: trace)).length < n := by
              have := remaining_cons_lt g trace id hmemg hnotr
              omega
            cases hps : compileParts
                (fun q mm ll => compilePlug g unfin n q mm (id :: trace) ll)
                (componentTyping node.head) node.parts memo log with
            | none => exact absurd hps (hparts (id :: trace) hb _ node.parts memo log)
            | some r =>
              obtain ⟨⟨cparts, wf⟩, m1, l1⟩ := r
              simp [hguard, hmemo, hg, hps]

theorem compileSketchAux_ne_none (g : Graph) (unfin : List Nat) (fuel : Nat)
    (hfuel : (remaining g []).length < fuel) :
    ∀ (ids : List Nat) (memo : Memo) (log : Log),
      compileSketchAux g unfin fuel ids memo log ≠ none := by
  intro ids
  induction ids with
  | nil => intro memo log; simp [compileSketchAux]
  | cons id rest ih =>
    intro memo log
    simp only [compileSketchAux]
    cases hc : compilePlug g unfin fuel (.planP id) memo [] log with
    | none => exact absurd hc (compilePlug_ne_none g unfin fuel (.planP id) memo [] log hfuel)
    | some r =>
      obtain ⟨res, memo', log'⟩ := r
      simpa [hc] using ih memo' log'

theorem compileSketch_ne_none (s : Sketch) (fuel : Nat)
    (hfuel : (remaining s.graph []).length < fuel) :
    compileSketch s fuel ≠ none := by
  simp only [compileSketch]
  cases haux : compileSketchAux s.graph s.unfinished fuel s.finished [] [] with
  | none => exact absurd haux (compileSketchAux_ne_none _ _ _ hfuel _ _ _)
  | some r =>
    obtain ⟨memo, log⟩ := r
    simp [haux]

theorem Memo.not_mem_of_lookup_none (memo : Memo) (i : Nat)
    (h : Memo.lookup memo i = none) : i ∉ memo.map Prod.fst := by
  induction memo with
  | nil => simp
  | cons p rest ih =>
    obtain ⟨k, e⟩ := p
    by_cases hk : k = i
    · simp [Memo.lookup, hk] at h
    · simp only [Memo.lookup, if_neg hk] at h
      simp [ih h, Ne.symm hk]

/-- Sequencing coherent compile steps over the values of a mapping
component preserves coherence and only appends fresh memo entries. -/
theorem compileMapVals_coherent (g : Graph) (unfin : List Nat) (n : Nat) (trace' : List Nat)
    (hplug : ∀ (p : Plug) (memo : Memo) (log : Log) (r : CE × Bool) (memo' : Memo) (log' : Log),
      compilePlug g unfin n p memo trace' log = some (r, memo', log') →
      MemoCoherent memo trace' log →
      MemoCoherent memo' trace' log'
        ∧ ∃ new, memo'.map Prod.fst = memo.map Prod.fst ++ new) :
    ∀ (m : List (Plug × Plug)) (memo : Memo) (log : Log) (r : List (Plug × CE) × Bool)
      (memo' : Memo) (log' : Log),
      compileMapVals (fun q mm ll => compilePlug g unfin n q mm trace' ll) m memo log
        = some (r, memo', log') →
      MemoCoherent memo trace' log →
      MemoCoherent memo' trace' log'
        ∧ ∃ new, memo'.map Prod.fst = memo.map Prod.fst ++ new := by
  intro m
  induction m with
  | nil =>
    intro memo log r memo' log' hres hcoh
    simp only [compileMapVals] at hres
    injection hres with h
    injection h with ha hb
    injection hb with hb1 hb2
    subst hb1; subst hb2
    exact ⟨hcoh, [], by simp⟩
  | cons kv rest ihm =>
    intro memo log r memo' log' hres hcoh
    obtain ⟨k, v⟩ := kv
    simp only [compileMapVals] at hres
    cases hcv : compilePlug g unfin n v memo trace' log with
    | none => rw [hcv] at hres; exact absurd hres (by simp)
    | some r1 =>
      obtain ⟨cw, memo₁, log₁⟩ := r1
      obtain ⟨ce, wf⟩ := cw
      rw [hcv] at hres
      dsimp only at hres
      cases hrest : compileMapVals (fun q mm ll => compilePlug g unfin n q mm trace' ll)
          rest memo₁ log₁ with
      | none => rw [hrest] at hres; exact absurd hres (by simp)
      | some r2 =>
        obtain ⟨cw2, memo₂, log₂⟩ := r2
        obtain ⟨crest, wfrest⟩ := cw2
        rw [hrest] at hres
        dsimp only at hres
        injection hres with h
        injection h with ha hb
        injection hb with hb1 hb2
        subst hb1; subst hb2
        obtain ⟨hc₁, new₁, hext₁⟩ := hplug v memo log (ce, wf) memo₁ log₁ hcv hcoh
        obtain ⟨hc₂, new₂, hext₂⟩ := ihm memo₁ log₁ _ memo₂ log₂ hrest hc₁
        exact ⟨hc₂, new₁ ++ new₂, by rw [hext₂, hext₁, List.append_assoc]⟩

/-- Resolving one component preserves coherence. -/
theorem compileOnePart_coherent (g : Graph) (unfin : List Nat) (n : Nat) (trace' : List Nat)
    (hplug : ∀ (p : Plug) (memo : Memo) (log : Log) (r : CE × Bool) (memo' : Memo) (log' : Log),
      compilePlug g unfin n p memo trace' log = some (r, memo', log') →
      MemoCoherent memo trace' log →
      MemoCoherent memo' trace' log'
        ∧ ∃ new, memo'.map Prod.fst = memo.map Prod.fst ++ new) :
    ∀ (t : Option CompTyping) (pv : PartVal) (memo : Memo) (log : Log) (r : CPart × Bool)
      (memo' : Memo) (log' : Log),
      compileOnePart (fun q mm ll => compilePlug g unfin n q mm trace' ll) t pv memo log
        = some (r, memo', log') →
      MemoCoherent memo trace' log →
      MemoCoherent memo' trace' log'
        ∧ ∃ new, memo'.map Prod.fst = memo.map Prod.fst ++ new := by
  have hsingle : ∀ (p : Plug) (memo : Memo) (log : Log) (r : CPart × Bool)
      (memo' : Memo) (log' : Log),
      (match compilePlug g unfin n p memo trace' log with
       | none => none
       | some ((ce, wf), memo₁, log₁) => some ((CPart.one ce, wf), memo₁, log₁))
        = some (r, memo', log') →
      MemoCoherent memo trace' log →
      MemoCoherent memo' trace' log'
        ∧ ∃ new, memo'.map Prod.fst = memo.map Prod.fst ++ new := by
    intro p memo log r memo' log' hres hcoh
    cases hcv : compilePlug g unfin n p memo trace' log with
    | none => rw [hcv] at hres; exact absurd hres (by simp)
    | some r1 =>
      obtain ⟨cw, memo₁, log₁⟩ := r1
      obtain ⟨ce, wf⟩ := cw
      rw [hcv] at hres
      dsimp only at hres
      injection hres with h
      injection h with ha hb
      injection hb with hb1 hb2
      subst hb1; subst hb2
      exact hplug p memo log (ce, wf) memo₁ log₁ hcv hcoh
  intro t pv memo log r memo' log' hres hcoh
  have hunchanged : ∀ (x : CPart × Bool),
      some (x, memo, log) = some (r, memo', log') →
      MemoCoherent memo' trace' log'
        ∧ ∃ new, memo'.map Prod.fst = memo.map Prod.fst ++ new := by
    intro x h
    injection h with h'
    injection h' with ha hb
    injection hb with hb1 hb2
    subst hb1; subst hb2
    exact ⟨hcoh, [], by simp⟩
  cases t with
  | none => cases pv <;> (simp only [compileOnePart] at hres; exact hunchanged _ hres)
  | some ct =>
    cases ct with
    | exprT =>
      cases pv with
      | single p =>
        simp only [compileOnePart] at hres
        exact hsingle p memo log r memo' log' hres hcoh
      | tup vs => simp only [compileOnePart] at hres; exact hunchanged _ hres
      | pmap m => simp only [compileOnePart] at hres; exact hunchanged _ hres
    | lambdaT =>
      cases pv with
      | single p =>
        simp only [compileOnePart] at hres
        exact hsingle p memo log r memo' log' hres hcoh
      | tup vs => simp only [compileOnePart] at hres; exact hunchanged _ hres
      | pmap m => simp only [compileOnePart] at hres; exact hunchanged _ hres
    | vmapT =>
      cases pv with
      | single p => simp only [compileOnePart] at hres; exact hunchanged _ hres
      | tup vs => simp only [compileOnePart] at hres; exact hunchanged _ hres
      | pmap m =>
        simp only [compileOnePart] at hres
        cases hcv : compileMapVals (fun q mm ll => compilePlug g unfin n q mm trace' ll)
            m memo log with
        | none => rw [hcv] at hres; exact absurd hres (by simp)
        | some r1 =>
          obtain ⟨cw, memo₁, log₁⟩ := r1
          obtain ⟨cm, wf⟩ := cw
          rw [hcv] at hres
          dsimp only at hres
          injection hres with h
          injection h with ha hb
          injection hb with hb1 hb2
          subst hb1; subst hb2
          exact compileMapVals_coherent g unfin n trace' hplug m memo log (cm, wf)
            memo₁ log₁ hcv hcoh
    | vtupleT => cases pv <;> (simp only [compileOnePart] at hres; exact hunchanged _ hres)
    | strT => cases pv <;> (simp only [compileOnePart] at hres; exact hunchanged _ hres)

/-- Resolving all components of a plan preserves coherence. -/
theorem compileParts_coherent (g : Graph) (unfin : List Nat) (n : Nat) (trace' : List Nat)
    (hplug : ∀ (p : Plug) (memo : Memo) (log : Log) (r : CE × Bool) (memo' : Memo) (log' : Log),
      compilePlug g unfin n p memo trace' log = some (r, memo', log') →
      MemoCoherent memo trace' log →
      MemoCoherent memo' trace' log'
        ∧ ∃ new, memo'.map Prod.fst = memo.map Prod.fst ++ new)
    (ty : String → Option CompTyping) :
    ∀ (ps : List (String × PartVal)) (memo : Memo) (log : Log)
      (r : List (String × CPart) × Bool) (memo' : Memo) (log' : Log),
      compileParts (fun q mm ll => compilePlug g unfin n q mm trace' ll) ty ps memo log
        = some (r, memo', log') →
      MemoCoherent memo trace' log →
      MemoCoherent memo' trace' log'
        ∧ ∃ new, memo'.map Prod.fst = memo.map Prod.fst ++ new := by
  intro ps
  induction ps with
  | nil =>
    intro memo log r memo' log' hres hcoh
    simp only [compileParts] at hres
    injection hres with h
    injection h with ha hb
    injection hb with hb1 hb2
    subst hb1; subst hb2
    exact ⟨hcoh, [], by simp⟩
  | cons x rest ihp =>
    intro memo log r memo' log' hres hcoh
    obtain ⟨nm, pv⟩ := x
    simp only [compileParts] at hres
    cases hone : compileOnePart (fun q mm ll => compilePlug g unfin n q mm trace' ll)
        (ty nm) pv memo log with
    | none => rw [hone] at hres; exact absurd hres (by simp)
    | some r1 =>
      obtain ⟨cw, memo₁, log₁⟩ := r1
      obtain ⟨cpart, wf⟩ := cw
      rw [hone] at hres
      dsimp only at hres
      cases hrest : compileParts (fun q mm ll => compilePlug g unfin n q mm trace' ll)
          ty rest memo₁ log₁ with
      | none => rw [hrest] at hres; exact absurd hres (by simp)
      | some r2 =>
        obtain ⟨cw2, memo₂, log₂⟩ := r2
        obtain ⟨crest, wfrest⟩ := cw2
        rw [hrest] at hres
        dsimp only at hres
        injection hres with h
        injection h with ha hb
        injection hb with hb1 hb2
        subst hb1; subst hb2
        obtain ⟨hc₁, new₁, hext₁⟩ :=
          compileOnePart_coherent g unfin n trace' hplug (ty nm) pv memo log (cpart, wf)
            memo₁ log₁ hone hcoh
        obtain ⟨hc₂, new₂, hext₂⟩ := ihp memo₁ log₁ _ memo₂ log₂ hrest hc₁
        exact ⟨hc₂, new₁ ++ new₂, by rw [hext₂, hext₁, List.append_assoc]⟩

/-- The function `compile_expression_plan` preserves compiler-state coherence: it only
appends fresh memo entries (plans not currently in the trace), keeps the
memo keys duplicate-free, and logs exactly the memo keys. -/
theorem compilePlug_coherent (g : Graph) (unfin : List Nat) :
    ∀ (n : Nat) (p : Plug) (memo : Memo) (trace : List Nat) (log : Log)
      (r : CE × Bool) (memo' : Memo) (log' : Log),
      compilePlug g unfin n p memo trace log = some (r, memo', log') →
      MemoCoherent memo trace log →
      MemoCoherent memo' trace log'
        ∧ ∃ new, memo'.map Prod.fst = memo.map Prod.fst ++ new := by
  intro n
  induction n using Nat.strong_induction_on with
  | _ n ih =>
    intro p memo trace log r memo' log' hres hcoh
    have hunchanged : ∀ (x : CE × Bool),
        some (x, memo, log) = some (r, memo', log') →
        MemoCoherent memo' trace log'
          ∧ ∃ new, memo'.map Prod.fst = memo.map Prod.fst ++ new := by
      intro x h
      injection h with h'
      injection h' with ha hb
      injection hb with hb1 hb2
      subst hb1; subst hb2
      exact ⟨hcoh, [], by simp⟩
    cases p with
    | boolP b => simp only [compilePlug] at hres; exact hunchanged _ hres
    | varP v => simp only [compilePlug] at hres; exact hunchanged _ hres
    | exprP e => simp only [compilePlug] at hres; exact hunchanged _ hres
    | strP s => simp only [compilePlug] at hres; exact hunchanged _ hres
    | planP id =>
      simp only [compilePlug] at hres
      by_cases hguard : (trace.contains id || unfin.contains id) = true
      · rw [if_pos hguard] at hres
        exact hunchanged _ hres
      · rw [if_neg hguard] at hres
        cases hmemo : Memo.lookup memo id with
        | some cw =>
          obtain ⟨ce, wf⟩ := cw
          rw [hmemo] at hres
          dsimp only at hres
          exact hunchanged _ hres
        | none =>
          rw [hmemo] at hres
          dsimp only at hres
          cases hg : g.lookup id with
          | none =>
            rw [hg] at hres
            dsimp only at hres
            exact hunchanged _ hres
          | some node =>
            rw [hg] at hres
            dsimp only at hres
            cases n with
            | zero => exact absurd hres (by simp)
            | succ n' =>
              dsimp only at hres
              cases hps : compileParts
                  (fun q mm ll => compilePlug g unfin n' q mm (id :: trace) ll)
                  (componentTyping node.head) node.parts memo log with
              | none => rw [hps] at hres; exact absurd hres (by simp)
              | some rp =>
                obtain ⟨pw, memo₁, log₁⟩ := rp
                obtain ⟨cparts, wf⟩ := pw
                rw [hps] at hres
                dsimp only at hres
                injection hres with h
                injection h with ha hb
                injection hb with hb1 hb2
                subst hb1; subst hb2
                have hid_nm : id ∉ memo.map Prod.fst :=
                  Memo.not_mem_of_lookup_none memo id hmemo
                have htr : trace.contains id = false := by
                  cases hc : trace.contains id with
                  | false => rfl
                  | true => exact absurd (by rw [hc, Bool.true_or]) hguard
                have hid_tr : id ∉ trace := by simpa using htr
                have hcoh' : MemoCoherent memo (id :: trace) log := by
                  refine ⟨?_, hcoh.2.1, hcoh.2.2⟩
                  intro i hi
                  rcases List.mem_cons.mp hi with rfl | hi'
                  · exact hid_nm
                  · exact hcoh.1 i hi'
                obtain ⟨⟨hdisj₁, hnodup₁, hlog₁⟩, new₁, hext₁⟩ :=
                  compileParts_coherent g unfin n' (id :: trace)
                    (fun p m l rr m' l' h hc =>
                      ih n' (Nat.lt_succ_self n') p m (id :: trace) l rr m' l' h hc)
                    (componentTyping node.head) node.parts memo log (cparts, wf)
                    memo₁ log₁ hps hcoh'
                have hid₁ : id ∉ memo₁.map Prod.fst :=
                  hdisj₁ id (List.mem_cons_self _ _)
                constructor
                · refine ⟨?_, ?_, ?_⟩
                  · intro i hi
                    rw [List.map_append]
                    intro hm
                    rcases List.mem_append.mp hm with h | h
                    · exact hdisj₁ i (List.mem_cons_of_mem _ hi) h
                    · simp only [List.map_cons, List.map_nil, List.mem_singleton] at h
                      subst h
                      exact hid_tr hi
                  · rw [List.map_append]
                    rw [List.nodup_append]
                    refine ⟨hnodup₁, by simp, ?_⟩
                    intro x hx hx'
                    simp only [List.map_cons, List.map_nil, List.mem_singleton] at hx'
                    subst hx'
                    exact hid₁ hx
                  · rw [List.map_append, hlog₁]
                    simp
                · refine ⟨new₁ ++ [id], ?_⟩
                  rw [List.map_append, hext₁, List.append_assoc]
                  simp

theorem compileSketchAux_coherent (g : Graph) (unfin : List Nat) (fuel : Nat) :
    ∀ (ids : List Nat) (memo : Memo) (log : Log) (memo' : Memo) (log' : Log),
      compileSketchAux g unfin fuel ids memo log = some (memo', log') →
      MemoCoherent memo [] log →
      MemoCoherent memo' [] log' := by
  intro ids
  induction ids with
  | nil =>
    intro memo log memo' log' hres hcoh
    simp only [compileSketchAux] at hres
    injection hres with h
    injection h with h1 h2
    subst h1; subst h2
    exact hcoh
  | cons id rest ih =>
    intro memo log memo' log' hres hcoh
    simp only [compileSketchAux] at hres
    cases hc : compilePlug g unfin fuel (.planP id) memo [] log with
    | none => rw [hc] at hres; exact absurd hres (by simp)
    | some r =>
      obtain ⟨rr, memo₁, log₁⟩ := r
      rw [hc] at hres
      dsimp only at hres
      obtain ⟨hc₁, -⟩ :=
        compilePlug_coherent g unfin fuel (.planP id) memo [] log rr memo₁ log₁ hc hcoh
      exact ih memo₁ log₁ memo' log' hres hc₁

theorem compileSketch_coherent (s : Sketch) (fuel : Nat) (memo : Memo) (log : Log)
    (wfs : List CE) (h : compileSketch s fuel = some (memo, log, wfs)) :
    log.Nodup ∧ log = memo.map Prod.fst := by
  simp only [compileSketch] at h
  cases haux : compileSketchAux s.graph s.unfinished fuel s.finished [] [] with
  | none => rw [haux] at h; exact absurd h (by simp)
  | some r =>
    obtain ⟨memo₁, log₁⟩ := r
    rw [haux] at h
    dsimp only at h
    injection h with h1
    injection h1 with ha hb
    injection hb with hb1 hb2
    subst ha; subst hb1
    have hcoh := compileSketchAux_coherent s.graph s.unfinished fuel s.finished [] []
      memo₁ log₁ haux ⟨fun i hi => absurd hi (List.not_mem_nil i), List.nodup_nil, rfl⟩
    exact ⟨hcoh.2.2 ▸ hcoh.2.1, hcoh.2.2⟩

theorem Graph.lookup_set_self (g : Graph) (i : Nat) (node n' : PlanNode)
    (h : g.lookup i = some node) : (g.set i n').lookup i = some n' := by
  induction g with
  | nil => simp [Graph.lookup] at h
  | cons p rest ih =>
    obtain ⟨k, m⟩ := p
    by_cases hk : k = i
    · simp [Graph.set, Graph.lookup, hk]
    · simp only [Graph.lookup, if_neg hk] at h
      simp [Graph.set, Graph.lookup, hk, ih h]

theorem partsLookup_partsSet_self (parts : List (String × PartVal)) (nm : String)
    (v : PartVal) : partsLookup (partsSet parts nm v) nm = some v := by
  induction parts with
  | nil => simp [partsSet, partsLookup]
  | cons p rest ih =>
    obtain ⟨k, pv⟩ := p
    by_cases hk : k = nm
    · simp [partsSet, partsLookup, hk]
    · simp [partsSet, partsLookup, hk, ih]

theorem removeFirst_isSome_of_contains (l : List Nat) (i : Nat)
    (h : l.contains i = true) : ∃ l', removeFirst l i = some l' := by
  induction l with
  | nil => simp at h
  | cons x rest ih =>
    by_cases hx : x = i
    · exact ⟨rest, by simp [removeFirst, hx]⟩
    · have hr : rest.contains i = true := by
        simp only [List.contains_cons, Bool.or_eq_true] at h
        rcases h with h' | h'
        · exact absurd (show i = x by simpa using h') (fun he => hx he.symm)
        · exact h'
      obtain ⟨l', hl'⟩ := ih hr
      exact ⟨x :: l', by simp [removeFirst, hx, hl']⟩

/-! ## The claims -/

/-- Claim C1 (amended): when `evaluate` reduces an `Application` whose
evaluated head is a `Lambda ll`, the body runs under
`child = ambient.update(ll.closed ++ zip(ll.params, evaluated-args) ++
evaluated-kwargs)`: keyword bindings shadow positional ones, positional
bindings shadow `ll.closed`, and all three shadow the ambient environment —
but a body variable bound by none of them *does* resolve through the
ambient environment passed to the `Application` (the scoping is
deliberately dynamic, per the module docstring of `genlisp/base.py`);
second conjunct: a key absent from the update pairs looks up to its ambient
value unchanged. -/
theorem claim_C1_beta_child_includes_ambient :
    (∀ (n : Nat) (env : Env) (hd : Expr) (args : List Expr) (kwargs : List (Var × Expr))
      (vs : List Var) (body : Expr) (closed : Env) (nm : Option String)
      (eargs : List Expr) (ekw : List (Var × Expr)),
      evaluate n hd env = .ok (.lam vs body closed nm) →
      evalExceptList (fun p => (evaluate n p.2 env).map (fun v => (p.1, v))) kwargs = .ok ekw →
      evalExceptList (fun x => evaluate n x env) (args.take vs.length) = .ok eargs →
      evaluate (n + 1) (.beta hd args kwargs) env
        = evaluate n body (Env.update env (closed ++ vs.zip eargs ++ ekw)))
    ∧ (∀ (e : Env) (ps : List (Var × Expr)) (k : Var), k ∉ ps.map Prod.fst →
        Env.lookup (Env.update e ps) k = Env.lookup e k) :=
  ⟨evaluate_beta_lam, Env.lookup_update_not_mem⟩

/-- Claim C1 (counterexample to the claim as stated): applying a stored
`Lambda` with empty `closed`, no params and no kwargs, whose body is the
free variable `vV`, succeeds under an ambient environment binding `vV` —
while under the claim's child `ll.closed.merged(zip(...)).merged(kwargs)`
(which omits the ambient environment) the same body variable does not
resolve. -/
theorem claim_C1_counterexample :
    evaluate 10 (.beta (.var fV) [] []) [(fV, .lam [] (.var vV) [] none), (vV, .bool true)]
      = .ok (.bool true)
    ∧ evaluate 10 (.var vV)
        (Env.update (Env.update ([] : Env) (List.zip ([] : List Var) ([] : List Expr)))
          ([] : List (Var × Expr)))
      = .error (.unbound vV) :=
  ⟨rfl, rfl⟩

theorem claim_C1_witness :
    (evaluate 2 (.beta (.lam [] (.var vV) [] none) [] []) [(vV, .bool true)]
      = evaluate 1 (.var vV)
          (Env.update [(vV, .bool true)]
            (([] : Env) ++ List.zip ([] : List Var) ([] : List Expr) ++ [])))
    ∧ Env.lookup (Env.update [(vV, .bool true)] [(fV, .bool false)]) vV
      = Env.lookup [(vV, .bool true)] vV :=
  ⟨claim_C1_beta_child_includes_ambient.1 1 [(vV, .bool true)] (.lam [] (.var vV) [] none)
      [] [] [] (.var vV) [(vV, .bool true)] none [] [] rfl rfl rfl,
   claim_C1_beta_child_includes_ambient.2 [(vV, .bool true)] [(fV, .bool false)] vV (by decide)⟩

/-- Claim C2: the compiler terminates on every plan graph.  First conjunct:
resolving a reference to a plan in the `trace` set or in the
`unfinished-plans` set returns `(None, False)` immediately — at *any* fuel,
i.e. with no further recursion and no error, leaving memo and log
untouched.  Second conjunct: any fuel exceeding the number of plan ids
suffices (`compileSketch` never exhausts it), so the recursion depth is
bounded by the graph size.  Third conjunct: compiling the sketch with two
mutually-referencing finished plans terminates with both memo entries
marked well-formed `= false` and an empty well-formed list. -/
theorem claim_C2_compile_terminates :
    (∀ (fuel : Nat) (g : Graph) (unfin : List Nat) (id : Nat) (memo : Memo)
      (trace : List Nat) (log : Log),
      id ∈ trace ∨ id ∈ unfin →
      compilePlug g unfin fuel (.planP id) memo trace log
        = some ((.ceNone, false), memo, log))
    ∧ (∀ (s : Sketch) (fuel : Nat), (remaining s.graph []).length < fuel →
        compileSketch s fuel ≠ none)
    ∧ compileSketch cycSketch 10
      = some ([(1, .ifE .ceNone (.ceBool true) (.ceBool true), false),
               (0, .ifE (.ifE .ceNone (.ceBool true) (.ceBool true)) (.ceBool true)
                  (.ceBool true), false)],
          [1, 0], []) := by
  refine ⟨?_, fun s fuel h => compileSketch_ne_none s fuel h, rfl⟩
  intro fuel g unfin id memo trace log h
  rcases h with h | h <;> simp [compilePlug, h]

theorem claim_C2_witness :
    compilePlug cycSketch.graph [] 5 (.planP 0) [] [0] []
      = some ((.ceNone, false), [], [])
    ∧ compileSketch cycSketch 10 ≠ none :=
  ⟨claim_C2_compile_terminates.1 5 cycSketch.graph [] 0 [] [0] [] (Or.inl (by decide)),
   claim_C2_compile_terminates.2.1 cycSketch 10 (by decide)⟩

/-- Claim C3: the environment merge (the spec-modelled `frozendict.update`)
is the right-biased union — every key of `m` maps to `m`'s value and every
other key keeps `e`'s value (the operation is a pure function of the
embedding, so `e` itself is unchanged by construction). -/
theorem claim_C3_update_right_biased (e m : Env) (k : Var)
    (hm : (m.map Prod.fst).Nodup) :
    Env.lookup (Env.update e m) k =
      match Env.lookup m k with
      | some v => some v
      | none => Env.lookup e k := by
  rw [Env.update, Env.lookup_append, Env.lookup_reverse_of_nodup m k hm]

theorem claim_C3_witness :
    Env.lookup (Env.update [(orVarA, .bool true)] [(orVarB, .bool false)]) orVarA =
      match Env.lookup [(orVarB, .bool false)] orVarA with
      | some v => some v
      | none => Env.lookup [(orVarA, .bool true)] orVarA :=
  claim_C3_update_right_biased [(orVarA, .bool true)] [(orVarB, .bool false)] orVarA
    (by decide)

/-- Claim C4 (code_bug evidence): a connect move that inserts one keyword
argument into the `Beta` plan whose head part is the primitive token `Nand`
completes the plan's required components, and the plan is moved to
`finished_expressions` with its `finished` flag set — even though `Nand`'s
expected parameters `a`, `b` are *not* among the keyword-argument keys
(second conjunct).  The side constraint never fires because
`parts['head'] in GenLispCallable.args` compares the connected value
against the classes `Lambda`/`FunctionToken` themselves. -/
theorem claim_C4_side_constraint_never_fires :
    c4Sketch.update (.connect 0 "kwargs" [.varP kV, .boolP true])
      = .ok ⟨[(0, ⟨.betaH,
            [("head", .single (.exprP Nand)), ("kwargs", .pmap [(.varP kV, .boolP true)])],
            true⟩)], [], [0], [kV], []⟩
    ∧ (expectedHeadVars (.exprP Nand)).all
        (fun v => pmapHasVarKey [(.varP kV, .boolP true)] v) = false :=
  ⟨rfl, rfl⟩

/-- Claim C5 (code_bug evidence): applying a two-parameter `Lambda` to a
single positional argument does not raise any arity error: `zip` silently
truncates the parameter bindings (the `TODO: make sure have enough values`
in `genlisp/base.py` marks the missing check).  A body that reads the
unbound second parameter fails only later, with a `KeyError`-style unbound
variable error, not an arity error — no `ArityMismatch` exists in the
code. -/
theorem claim_C5_silent_truncation :
    evaluate 10 (.beta (.lam [orVarA, orVarB] (.var orVarA) [] none) [.bool true] []) []
      = .ok (.bool true)
    ∧ evaluate 10 (.beta (.lam [orVarA, orVarB] (.var orVarB) [] none) [.bool true] []) []
      = .error (.unbound orVarB) :=
  ⟨rfl, rfl⟩

/-- Claim C6 (amended): a connect move on a scalar (`Expression`-typed) slot
installs `plugs[0]` unconditionally — it succeeds whether or not the slot
is already occupied, *replacing* any existing value; no `AlreadyConnected`
error exists in the code. -/
theorem claim_C6_scalar_overwrite (s : Sketch) (id : Nat) (nm : String) (node : PlanNode)
    (p : Plug) (ps : List Plug)
    (hnode : s.graph.lookup id = some node)
    (hty : componentTyping node.head nm = some .exprT)
    (hunfin : s.unfinished.contains id = true) :
    ∃ s', s.update (.connect id nm (p :: ps)) = .ok s'
      ∧ ∃ node', s'.graph.lookup id = some node'
        ∧ partsLookup node'.parts nm = some (.single p) := by
  simp only [Sketch.update, hnode, hty, installPart]
  by_cases hfin : (requiredSubset (requiredComponents node.head)
      ((partsSet node.parts nm (.single p)).map Prod.fst)
      && betaOk node.head (partsSet node.parts nm (.single p))) = true
  · obtain ⟨l', hl'⟩ := removeFirst_isSome_of_contains s.unfinished id hunfin
    rw [if_pos hfin, hl']
    exact ⟨_, rfl,
      ⟨_, Graph.lookup_set_self s.graph id node _ hnode, partsLookup_partsSet_self _ _ _⟩⟩
  · rw [if_neg hfin]
    exact ⟨_, rfl,
      ⟨_, Graph.lookup_set_self s.graph id node _ hnode, partsLookup_partsSet_self _ _ _⟩⟩

/-- Claim C6 (counterexample to the claim as stated): a second connect to
the already-occupied scalar `condition` slot of an `If` plan succeeds (no
`AlreadyConnected` error) and replaces the stored value — the resulting
parts differ from the original ones. -/
theorem claim_C6_counterexample :
    c6Sketch.update (.connect 0 "condition" [.boolP false])
      = .ok ⟨[(0, ⟨.ifH, [("condition", .single (.boolP false))], false⟩)], [0], [], [], []⟩
    ∧ ([("condition", PartVal.single (.boolP false))] : List (String × PartVal))
        ≠ c6IfNode.parts := by
  refine ⟨rfl, ?_⟩
  intro h
  simp [c6IfNode] at h

theorem claim_C6_witness :
    ∃ s', c6Sketch.update (.connect 0 "condition" [.boolP false]) = .ok s'
      ∧ ∃ node', s'.graph.lookup 0 = some node'
        ∧ partsLookup node'.parts "condition" = some (.single (.boolP false)) :=
  claim_C6_scalar_overwrite c6Sketch 0 "condition" c6IfNode (.boolP false) [] rfl rfl rfl

/-- Claim C7 (amended): for every `Let` with at least one binding,
`evaluate(Let{bindings, body}, env)` equals
`evaluate(Beta(let_lambda, inits), child)` with
`let_lambda = Lambda(vars, body, closed=env, name='let')` and
`child = env.update(bindings)` (one fuel step apart); and the recursive
binding of `test_base.py::test_recursive` evaluates to the expected `True`.
(The original claim fails only on the empty-binding `Let`, where the code's
tuple unpacking raises.) -/
theorem claim_C7_let_refines_beta :
    (∀ (n : Nat) (m : List (Var × Expr)) (body : Expr) (env : Env), m ≠ [] →
      evaluate (n + 1) (.letE m body) env
        = evaluate n
            (.beta (.lam (m.map Prod.fst) body env (some "let")) (m.map Prod.snd) [])
            (Env.update env m))
    ∧ evaluate 50 (.letE [(llV, recLam)] (.beta (.var llV) [.bool false] [])) []
      = .ok (.bool true) :=
  ⟨evaluate_letE_cons, rfl⟩

/-- Claim C7 (counterexample to the claim as stated): for the `Let` with an
*empty* binding mapping the equality fails — the `Let` raises the
tuple-unpacking `ValueError` while the `Beta` form evaluates the body. -/
theorem claim_C7_counterexample :
    evaluate 10 (.letE [] (.bool true)) [] = .error .emptyLetUnpack
    ∧ evaluate 9 (.beta (.lam [] (.bool true) [] (some "let")) [] []) (Env.update [] [])
      = .ok (.bool true) :=
  ⟨rfl, rfl⟩

theorem claim_C7_witness :
    evaluate 3 (.letE [(orVarA, .bool true)] (.var orVarA)) []
      = evaluate 2 (.beta (.lam [orVarA] (.var orVarA) [] (some "let")) [.bool true] [])
          (Env.update [] [(orVarA, .bool true)]) :=
  claim_C7_let_refines_beta.1 2 [(orVarA, .bool true)] (.var orVarA) [] (by simp)

/-- Claim C8: for all booleans `a`, `b`, applying the built-in `Or_` lambda
to `(a, b)` — positionally or by keyword on its parameter variables —
yields `a or b`, and applying the `Nand` primitive yields
`not (a and b)`. -/
theorem claim_C8_or_nand_truth_tables :
    ∀ a b : Bool,
      evaluate 10 (.beta Or_ [.bool a, .bool b] []) [] = .ok (.bool (a || b))
      ∧ evaluate 10 (.beta Or_ [] [(orVarA, .bool a), (orVarB, .bool b)]) []
        = .ok (.bool (a || b))
      ∧ evaluate 10 (.beta Nand [.bool a, .bool b] []) [] = .ok (.bool (!(a && b))) := by
  intro a b
  cases a <;> cases b <;> exact ⟨rfl, rfl, rfl⟩

/-- Claim C9: each plan node is resolved at most once per `compile_sketch`
run.  First conjunct, for every sketch: the build log (the order in which
plan nodes complete compilation) has no duplicates, and the memo's key
sequence is exactly that log — one memo entry per built plan.  Second
conjunct: in the DAG-shared sketch, the sub-plan `0` referenced from both
finished parents `1` and `2` compiles once (log `[0, 1, 2]`), and both
parents' compiled expressions embed the *single* memo entry `dagSubCE` for
it. -/
theorem claim_C9_single_compilation :
    (∀ (s : Sketch) (fuel : Nat) (memo : Memo) (log : Log) (wfs : List CE),
      compileSketch s fuel = some (memo, log, wfs) →
      log.Nodup ∧ log = memo.map Prod.fst)
    ∧ compileSketch dagSketch 10
      = some ([(0, dagSubCE, true), (1, dagParentCE, true), (2, dagParentCE, true)],
          [0, 1, 2], [dagSubCE, dagParentCE, dagParentCE]) :=
  ⟨compileSketch_coherent, rfl⟩

theorem claim_C9_witness :
    ([0, 1, 2] : List Nat).Nodup
    ∧ ([0, 1, 2] : List Nat) =
        ([(0, dagSubCE, true), (1, dagParentCE, true), (2, dagParentCE, true)] : Memo).map
          Prod.fst :=
  claim_C9_single_compilation.1 dagSketch 10
    [(0, dagSubCE, true), (1, dagParentCE, true), (2, dagParentCE, true)] [0, 1, 2]
    [dagSubCE, dagParentCE, dagParentCE] rfl

/-- Claim C10 (amended): for a `Let` whose body is exactly a variable `v`
that the (key-distinct) bindings map to a `Lambda`, *provided every
binding's initializer evaluates without error under the `Let`-extended
environment*, `evaluate` returns a `Lambda` whose closed environment
contains a binding for `v` itself — the escaping closure can refer to
itself.  (The unamended claim fails when a sibling initializer raises.) -/
theorem claim_C10_recursive_closure (n : Nat) (env : Env) (m : List (Var × Expr)) (v : Var)
    (pl : List Var) (bl : Expr) (cl : Env) (nl : Option String)
    (hnodup : (m.map Prod.fst).Nodup)
    (hmem : (v, Expr.lam pl bl cl nl) ∈ m)
    (hall : ∀ p ∈ m, ∃ u, evaluate (n + 1) p.2 (Env.update env m) = .ok u) :
    ∃ c : Env, evaluate (n + 3) (.letE m (.var v)) env = .ok (.lam pl bl c nl)
      ∧ ∃ u, Env.lookup c v = some u := by
  have hm : m ≠ [] := by rintro rfl; simp at hmem
  have hstep := evaluate_letE_cons (n + 2) m (.var v) env hm
  obtain ⟨eargs, w, hargs, hlook, hw⟩ :=
    evalList_zip_lookup (n + 1) (Env.update env m) m v (Expr.lam pl bl cl nl) hnodup hmem hall
  have hwval : w = Expr.lam pl bl (Env.update (Env.update env m) cl) nl := by
    simp [evaluate] at hw
    exact hw.symm
  have htake : (m.map Prod.snd).take (m.map Prod.fst).length = m.map Prod.snd := by
    rw [List.length_map, ← List.length_map m Prod.snd, List.take_length]
  have hhead : evaluate (n + 1) (.lam (m.map Prod.fst) (.var v) env (some "let"))
      (Env.update env m)
      = .ok (.lam (m.map Prod.fst) (.var v) (Env.update (Env.update env m) env)
          (some "let")) := by
    simp [evaluate]
  have hbeta := evaluate_beta_lam (n + 1) (Env.update env m)
      (.lam (m.map Prod.fst) (.var v) env (some "let"))
      (m.map Prod.snd) [] (m.map Prod.fst) (.var v) (Env.update (Env.update env m) env)
      (some "let") eargs [] hhead rfl (by rw [htake]; exact hargs)
  have hsplit : Env.update (Env.update env m)
        (Env.update (Env.update env m) env ++ (m.map Prod.fst).zip eargs ++ [])
      = ((m.map Prod.fst).zip eargs).reverse
          ++ ((Env.update (Env.update env m) env).reverse ++ Env.update env m) := by
    simp [Env.update, List.reverse_append, List.append_assoc]
  have hvar : evaluate (n + 1) (.var v)
      (Env.update (Env.update env m)
        (Env.update (Env.update env m) env ++ (m.map Prod.fst).zip eargs ++ []))
      = .ok w := by
    rw [hsplit]
    simp [evaluate, Env.lookup_append, hlook]
  refine ⟨Env.update (Env.update env m) cl, ?_, ?_⟩
  · rw [hstep, hbeta, hvar, hwval]
  · have hv : v ∈ m.map Prod.fst := List.mem_map.mpr ⟨(v, .lam pl bl cl nl), hmem, rfl⟩
    cases hsome : Env.lookup cl.reverse v with
    | some u =>
      refine ⟨u, ?_⟩
      rw [Env.update, Env.lookup_append, hsome]
    | none =>
      have hvrev : v ∈ m.reverse.map Prod.fst := by
        rw [List.map_reverse, List.mem_reverse]
        exact hv
      obtain ⟨u, hu⟩ := Env.exists_lookup_of_mem m.reverse v hvrev
      refine ⟨u, ?_⟩
      rw [Env.update, Env.lookup_append, hsome, Env.update, Env.lookup_append, hu]

/-- Claim C10 (counterexample to the claim as stated): a `Let` whose body is
the variable `vV`, bound to a `Lambda`, but with a sibling binding whose
initializer reads an unbound variable, does not return a `Lambda` at all —
the whole evaluation fails with the sibling's unbound-variable error. -/
theorem claim_C10_counterexample :
    evaluate 10 (.letE [(vV, .lam [] (.bool true) [] none), (wV, .var uV)] (.var vV)) []
      = .error (.unbound uV) := rfl

theorem claim_C10_witness :
    ∃ c : Env,
      evaluate 5 (.letE [(llV, recLam)] (.var llV)) []
        = .ok (.lam [laV]
            (.ifE (.var laV) (.var laV)
              (.beta (.var llV) [.beta Or_ [.bool true, .var laV] []] []))
            c (some "recursive"))
      ∧ ∃ u, Env.lookup c llV = some u :=
  claim_C10_recursive_closure 2 [] [(llV, recLam)] llV [laV]
    (.ifE (.var laV) (.var laV) (.beta (.var llV) [.beta Or_ [.bool true, .var laV] []] []))
    [] (some "recursive") (by decide) (List.mem_singleton.mpr rfl)
    (fun p hp => by
      have hp' : p = (llV, recLam) := List.mem_singleton.mp hp
      subst hp'
      exact ⟨_, rfl⟩)

end Genlisp
